import Mathlib

/-!
Verification of the Sidetree bitcoin transaction store and synchronization
engine (src/src/TransactionStore.ts): the `InMemoryTransactionStore`
(`addTransaction`, `getLastTransaction`, `getExponentiallySpacedTransactions`,
`removeTransactionsLaterThan`) and the `BlockchainService` reconciliation loop
(`processTransactions`, `RevertInvalidTransactions`).

The store's transaction list is embedded as a `List Transaction`; the
`async`/`Promise` wrappers are dropped (every store method is sequential and
deterministic), and a thrown `Error` is embedded as `Except.error`.
The upstream request handler (`RequestHandler`, not part of the sources) is
embedded as an environment: the fetch endpoint as a script of responses
consumed in order, the first-valid endpoint as a response function applied to
the request's checkpoint list.
-/

/-- One Sidetree anchoring transaction (src/src/Transaction.ts is summarized
by its four fields as used in TransactionStore.ts and the spec's data model). -/
structure Transaction where
  transactionNumber : Nat
  transactionTime : Nat
  transactionTimeHash : String
  anchorFileHash : String
deriving DecidableEq, Repr

/-- `InMemoryTransactionStore.getLastTransaction`: `undefined` when the list is
empty, otherwise the element at index `length - 1`. -/
def getLastTransaction (transactions : List Transaction) : Option Transaction :=
  if transactions.length = 0 then none
  else transactions[transactions.length - 1]?

/-- `InMemoryTransactionStore.addTransaction`: silent no-op when the last
stored transaction's number is ≥ the argument's number, otherwise push. -/
def addTransaction (transactions : List Transaction) (transaction : Transaction) :
    List Transaction :=
  match getLastTransaction transactions with
  | some lastTransaction =>
    if transaction.transactionNumber ≤ lastTransaction.transactionNumber then
      transactions
    else
      transactions ++ [transaction]
  | none => transactions ++ [transaction]

/-- Loop body of `getExponentiallySpacedTransactions`: the TS loop keeps
`index` (current position) and `distance` (stride, doubling each round);
the stride is carried here as `distanceMinusOne` so that it is visibly
positive. Pushes `transactions[index]`, then continues at `index - distance`
while that is still ≥ 0. -/
def expSpacedAux (transactions : List Transaction) (index distanceMinusOne : Nat) :
    List Transaction :=
  match transactions[index]? with
  | none => []
  | some t =>
    if distanceMinusOne + 1 ≤ index then
      t :: expSpacedAux transactions (index - (distanceMinusOne + 1)) (2 * distanceMinusOne + 1)
    else
      [t]
termination_by index
decreasing_by omega

/-- `InMemoryTransactionStore.getExponentiallySpacedTransactions`: walk from
`length - 1` backwards with strides 1, 2, 4, 8, …; empty list for an empty
store (the TS loop starts at index `-1` and never runs). -/
def getExponentiallySpacedTransactions (transactions : List Transaction) :
    List Transaction :=
  if transactions.isEmpty then []
  else expSpacedAux transactions (transactions.length - 1) 0

/-- Modelled from the spec: `SortedArray.binarySearch` (src/lib/SortedArray is
imported by TransactionStore.ts but is not among the sources). Per §4.1 the
boundary is located "by binary search over the strictly-increasing
`transactionNumber` sequence", returning the index of the stored transaction
with the given number and `undefined` when no such transaction is found.
Classic inclusive-bounds binary search: compare the middle element, return its
index on equality, otherwise continue left (`upper := middle - 1`) or right
(`lower := middle + 1`) while `lower ≤ upper` still holds. -/
def binarySearchAux (transactions : List Transaction) (n : Nat)
    (lowerBoundary upperBoundary : Nat) : Option Nat :=
  let middle := (lowerBoundary + upperBoundary) / 2
  match transactions[middle]? with
  | none => none
  | some t =>
    if t.transactionNumber = n then
      some middle
    else if n < t.transactionNumber then
      if lowerBoundary + 1 ≤ middle then
        binarySearchAux transactions n lowerBoundary (middle - 1)
      else none
    else
      if middle + 1 ≤ upperBoundary then
        binarySearchAux transactions n (middle + 1) upperBoundary
      else none
termination_by upperBoundary + 1 - lowerBoundary
decreasing_by all_goals omega

/-- Modelled from the spec: entry point of `SortedArray.binarySearch` over the
whole array (`lower = 0`, `upper = length - 1`; an empty array is never
searched since `lower ≤ upper` fails immediately). -/
def binarySearch (transactions : List Transaction) (n : Nat) : Option Nat :=
  if transactions.isEmpty then none
  else binarySearchAux transactions n 0 (transactions.length - 1)

/-- `InMemoryTransactionStore.removeTransactionsLaterThan`: `undefined` clears
the store; otherwise binary-search the boundary index, throw when it is not
found, and `splice` away everything after it (keep the first `index + 1`). -/
def removeTransactionsLaterThan (transactions : List Transaction)
    (transactionNumber : Option Nat) : Except String (List Transaction) :=
  match transactionNumber with
  | none => Except.ok []
  | some n =>
    match binarySearch transactions n with
    | none => Except.error ("Unable to locate transction: " ++ toString n)
    | some bestKnownValidRecentTransactionIndex =>
      Except.ok (transactions.take (bestKnownValidRecentTransactionIndex + 1))

/-- The log invariant of the spec's data model: strictly increasing
`transactionNumber` along the stored sequence. -/
def StrictlyIncreasing (transactions : List Transaction) : Prop :=
  List.Pairwise (fun a b => a.transactionNumber < b.transactionNumber) transactions

instance : DecidablePred StrictlyIncreasing := fun ts =>
  inferInstanceAs (Decidable (List.Pairwise _ ts))

/-- A concrete transaction used by witnesses and counterexamples. -/
def tx (k : Nat) : Transaction :=
  { transactionNumber := k
    transactionTime := k
    transactionTimeHash := "h"
    anchorFileHash := "a" }

/-- One call to the store, for stating the C8 invariant over arbitrary call
sequences. -/
inductive StoreOp where
  | add (t : Transaction)
  | remove (n : Option Nat)
deriving DecidableEq, Repr

/-- Applies one store call to the stored list. A call on which
`removeTransactionsLaterThan` throws leaves the list as it was (the TS method
throws before its `splice` mutation). -/
def applyOp (transactions : List Transaction) : StoreOp → List Transaction
  | StoreOp.add t => addTransaction transactions t
  | StoreOp.remove n =>
    match removeTransactionsLaterThan transactions n with
    | Except.ok result => result
    | Except.error _ => transactions

/-- Response of the upstream fetch endpoint (`RequestHandler.handleFetchRequest`),
as consumed by `processTransactions`: a `Succeeded` body carrying
`transactions` and `moreTransactions`, a `BadRequest` body carrying a `code`,
or any other status (which falls through both branches). -/
inductive FetchResult where
  | succeeded (transactions : List Transaction) (moreTransactions : Bool)
  | badRequest (code : String)
  | otherFailure
deriving DecidableEq, Repr

/-- Response of the upstream first-valid endpoint
(`RequestHandler.handleFirstValidRequest`): `Succeeded` with the best known
valid recent transaction as body, or any non-`Succeeded` status. -/
inductive FirstValidResult where
  | succeeded (body : Transaction)
  | failure
deriving DecidableEq, Repr

/-- The reorg signal code checked by `processTransactions`. -/
def reorgCode : String := "invalid_transaction_number_or_time_hash"

/-- The `BlockchainService` state owned by the engine: the in-memory store's
list and the cached `lastKnownTransaction`. -/
structure EngineState where
  transactions : List Transaction
  lastKnownTransaction : Option Transaction
deriving DecidableEq, Repr

/-- The `(afterNumber, afterTimeHash)` pair a fetch derives from
`lastKnownTransaction` (both `undefined` when there is none). -/
def fetchRef (lastKnown : Option Transaction) : Option Nat × Option String :=
  (lastKnown.map (fun t => t.transactionNumber),
   lastKnown.map (fun t => t.transactionTimeHash))

/-- One step of the ingestion `for` loop of `processTransactions`: append the
fetched transaction, then refresh `lastKnownTransaction` from the store. -/
def ingestTransaction (st : EngineState) (t : Transaction) : EngineState :=
  let transactions := addTransaction st.transactions t
  { transactions := transactions
    lastKnownTransaction := getLastTransaction transactions }

/-- The whole ingestion `for` loop over one fetch response's transactions. -/
def ingestAll (st : EngineState) (fetched : List Transaction) : EngineState :=
  fetched.foldl ingestTransaction st

/-- `BlockchainService.RevertInvalidTransactions`: sample the exponentially
spaced checkpoints, send them to the first-valid endpoint (embedded as the
response function `handleFirstValidRequest`), and on a `Succeeded` response
truncate the store to the reported number and set `lastKnownTransaction` to
the response body. A non-`Succeeded` response leaves the state untouched; a
throw of `removeTransactionsLaterThan` propagates as `Except.error`. -/
def revertInvalidTransactions
    (handleFirstValidRequest : List Transaction → FirstValidResult)
    (st : EngineState) : Except String EngineState :=
  let exponentiallySpacedTransactions :=
    getExponentiallySpacedTransactions st.transactions
  match handleFirstValidRequest exponentiallySpacedTransactions with
  | FirstValidResult.succeeded body =>
    match removeTransactionsLaterThan st.transactions (some body.transactionNumber) with
    | Except.ok transactions =>
      Except.ok { transactions := transactions, lastKnownTransaction := some body }
    | Except.error e => Except.error e
  | FirstValidResult.failure => Except.ok st

/-- What one iteration of the `do … while (moreTransactions)` loop of
`processTransactions` did: the `(afterNumber, afterTimeHash)` reference its
fetch used, whether that fetch returned the reorg signal, and whether
`RevertInvalidTransactions` ran after it. -/
structure IterRecord where
  ref : Option Nat × Option String
  reorgSignal : Bool
  revertRan : Bool
deriving DecidableEq, Repr

/-- Result of one loop iteration: the state afterwards, the
`blockReorganizationDetected` flag and `moreTransactions` value afterwards,
the iteration's record, and whether the iteration threw (aborting the cycle
into the outer `catch`). -/
structure StepOut where
  st : EngineState
  flag : Bool
  more : Bool
  record : IterRecord
  aborted : Bool
deriving DecidableEq, Repr

/-- One iteration of the `do … while (moreTransactions)` loop: derive the
fetch reference from `lastKnownTransaction`, dispatch on the fetch response
(`Succeeded` ingests and overwrites `moreTransactions`; `BadRequest` with the
reorg code sets `blockReorganizationDetected`; anything else falls through,
leaving both untouched), then run `RevertInvalidTransactions` whenever the
flag is set. -/
def cycleStep (handleFirstValidRequest : List Transaction → FirstValidResult)
    (st : EngineState) (flag more : Bool) (r : FetchResult) : StepOut :=
  let ref := fetchRef st.lastKnownTransaction
  let processed : EngineState × Bool × Bool :=
    match r with
    | FetchResult.succeeded fetched m => (ingestAll st fetched, m, flag)
    | FetchResult.badRequest code => (st, more, flag || decide (code = reorgCode))
    | FetchResult.otherFailure => (st, more, flag)
  let signal : Bool :=
    match r with
    | FetchResult.badRequest code => decide (code = reorgCode)
    | _ => false
  match processed with
  | (st1, more1, flag1) =>
    if flag1 then
      match revertInvalidTransactions handleFirstValidRequest st1 with
      | Except.ok st2 =>
        { st := st2, flag := flag1, more := more1
          record := { ref := ref, reorgSignal := signal, revertRan := true }
          aborted := false }
      | Except.error _ =>
        { st := st1, flag := flag1, more := more1
          record := { ref := ref, reorgSignal := signal, revertRan := true }
          aborted := true }
    else
      { st := st1, flag := flag1, more := more1
        record := { ref := ref, reorgSignal := signal, revertRan := false }
        aborted := false }

/-- The `do … while (moreTransactions)` loop of `processTransactions`, driven
by the script of fetch responses the upstream returns (consumed in order; the
run also stops when the script is exhausted). Returns the final engine state
and the per-iteration records. -/
def runCycleAux (handleFirstValidRequest : List Transaction → FirstValidResult) :
    List FetchResult → EngineState → Bool → Bool → EngineState × List IterRecord
  | [], st, _, _ => (st, [])
  | r :: rest, st, flag, more =>
    let out := cycleStep handleFirstValidRequest st flag more r
    if out.aborted then (out.st, [out.record])
    else if out.more then
      let tail := runCycleAux handleFirstValidRequest rest out.st out.flag out.more
      (tail.1, out.record :: tail.2)
    else (out.st, [out.record])

/-- One full call of `processTransactions`: `blockReorganizationDetected`
starts `false`, and `moreTransactions` starts `false` (so a first iteration
that does not set it ends the cycle). -/
def runCycle (handleFirstValidRequest : List Transaction → FirstValidResult)
    (st : EngineState) (script : List FetchResult) :
    EngineState × List IterRecord :=
  runCycleAux handleFirstValidRequest script st false false

/-! ### Basic store lemmas -/

theorem getLastTransaction_eq_getLast (ts : List Transaction) :
    getLastTransaction ts = ts.getLast? := by
  cases ts with
  | nil => rfl
  | cons a l =>
    rw [List.getLast?_eq_getElem?]
    simp [getLastTransaction]

theorem getLastTransaction_eq_none_iff (ts : List Transaction) :
    getLastTransaction ts = none ↔ ts = [] := by
  rw [getLastTransaction_eq_getLast]
  cases ts <;> simp

theorem strictlyIncreasing_getElem_lt (ts : List Transaction)
    (hs : StrictlyIncreasing ts) (i j : Nat) (hi : i < ts.length)
    (hj : j < ts.length) (hij : i < j) :
    ts[i].transactionNumber < ts[j].transactionNumber :=
  List.pairwise_iff_getElem.1 hs i j hi hj hij

theorem strictlyIncreasing_index_unique (ts : List Transaction)
    (hs : StrictlyIncreasing ts) (i j : Nat) (hi : i < ts.length)
    (hj : j < ts.length)
    (h : ts[i].transactionNumber = ts[j].transactionNumber) : i = j := by
  rcases Nat.lt_trichotomy i j with h1 | h1 | h1
  · have := strictlyIncreasing_getElem_lt ts hs i j hi hj h1
    omega
  · exact h1
  · have := strictlyIncreasing_getElem_lt ts hs j i hj hi h1
    omega

theorem last_is_max (ts : List Transaction) (hs : StrictlyIncreasing ts)
    (l : Transaction) (hl : getLastTransaction ts = some l) :
    ∀ t ∈ ts, t.transactionNumber ≤ l.transactionNumber := by
  rw [getLastTransaction_eq_getLast, List.getLast?_eq_getElem?] at hl
  obtain ⟨hlen, hget⟩ := List.getElem?_eq_some_iff.1 hl
  intro t ht
  obtain ⟨i, hi, rfl⟩ := List.mem_iff_getElem.1 ht
  rcases Nat.lt_or_ge i (ts.length - 1) with h | h
  · have := strictlyIncreasing_getElem_lt ts hs i (ts.length - 1) hi hlen h
    rw [hget] at this
    omega
  · have hieq : i = ts.length - 1 := by omega
    subst hieq
    rw [hget]

theorem addTransaction_strictlyIncreasing (ts : List Transaction)
    (t : Transaction) (hs : StrictlyIncreasing ts) :
    StrictlyIncreasing (addTransaction ts t) := by
  unfold addTransaction
  cases hlast : getLastTransaction ts with
  | none =>
    have : ts = [] := (getLastTransaction_eq_none_iff ts).1 hlast
    subst this
    simp [StrictlyIncreasing]
  | some lastTransaction =>
    by_cases hle : t.transactionNumber ≤ lastTransaction.transactionNumber
    · simpa [hle] using hs
    · simp only [if_neg hle]
      refine List.pairwise_append.2 ⟨hs, List.pairwise_singleton _ _, ?_⟩
      intro a ha b hb
      simp only [List.mem_singleton] at hb
      subst hb
      have := last_is_max ts hs lastTransaction hlast a ha
      omega

/-! ### Binary search correctness (on the spec-modelled `SortedArray.binarySearch`) -/

theorem binarySearchAux_sound (ts : List Transaction) (n : Nat)
    (lowerBoundary upperBoundary : Nat) :
    ∀ i, binarySearchAux ts n lowerBoundary upperBoundary = some i →
      ∃ h : i < ts.length, ts[i].transactionNumber = n := by
  induction lowerBoundary, upperBoundary using binarySearchAux.induct ts n with
  | case1 lo hi middle hnone =>
    intro i h
    rw [binarySearchAux.eq_def] at h
    simp only [hnone] at h
    exact absurd h (by simp)
  | case2 lo hi middle t hget heq =>
    intro i h
    rw [binarySearchAux.eq_def] at h
    simp only [hget, heq, if_pos rfl] at h
    obtain rfl : (lo + hi) / 2 = i := by simpa using h
    obtain ⟨hm, hmt⟩ := List.getElem?_eq_some_iff.1 hget
    exact ⟨hm, by rw [hmt, heq]⟩
  | case3 lo hi middle t hget hne hlt hguard ih =>
    intro i h
    rw [binarySearchAux.eq_def] at h
    simp only [hget, hne, hlt, hguard, if_true, if_false, ite_true, ite_false] at h
    exact ih i (by simpa using h)
  | case4 lo hi middle t hget hne hlt hguard =>
    intro i h
    rw [binarySearchAux.eq_def] at h
    simp only [hget, hne, hlt, hguard] at h
    simp at h
  | case5 lo hi middle t hget hne hlt hguard ih =>
    intro i h
    rw [binarySearchAux.eq_def] at h
    simp only [hget, hne, hlt, hguard] at h
    exact ih i (by simpa using h)
  | case6 lo hi middle t hget hne hlt hguard =>
    intro i h
    rw [binarySearchAux.eq_def] at h
    simp only [hget, hne, hlt, hguard] at h
    simp at h

theorem binarySearchAux_complete (ts : List Transaction)
    (hs : StrictlyIncreasing ts) (n : Nat) (i : Nat) (hin : i < ts.length)
    (hnum : ts[i].transactionNumber = n) :
    ∀ lowerBoundary upperBoundary, upperBoundary < ts.length →
      lowerBoundary ≤ i → i ≤ upperBoundary →
      binarySearchAux ts n lowerBoundary upperBoundary = some i := by
  intro lowerBoundary upperBoundary
  induction lowerBoundary, upperBoundary using binarySearchAux.induct ts n with
  | case1 lo hi middle hnone =>
    intro h1 h2 h3
    have hmid : middle = (lo + hi) / 2 := rfl
    have hmlen : middle < ts.length := by omega
    rw [List.getElem?_eq_getElem hmlen] at hnone
    exact absurd hnone (by simp)
  | case2 lo hi middle t hget heq =>
    intro h1 h2 h3
    obtain ⟨hmlen, hmget⟩ := List.getElem?_eq_some_iff.1 hget
    have hmi : middle = i := by
      apply strictlyIncreasing_index_unique ts hs middle i hmlen hin
      rw [hmget, heq, hnum]
    rw [binarySearchAux.eq_def]
    simp only [hget, heq, if_pos rfl, if_true]
    exact congrArg some hmi
  | case3 lo hi middle t hget hne hlt hguard ih =>
    intro h1 h2 h3
    obtain ⟨hmlen, hmget⟩ := List.getElem?_eq_some_iff.1 hget
    have him : i < middle := by
      rcases Nat.lt_trichotomy i middle with h | h | h
      · exact h
      · have hti : ts[i]? = some t := by rw [h]; exact hget
        rw [List.getElem?_eq_getElem hin] at hti
        have hit : ts[i] = t := by simpa using hti
        rw [hit] at hnum
        exact absurd hnum hne
      · have hlt2 := strictlyIncreasing_getElem_lt ts hs middle i hmlen hin h
        rw [hmget, hnum] at hlt2
        omega
    rw [binarySearchAux.eq_def]
    simp only [hget, hne, hlt, hguard, if_false, if_true, ite_true, ite_false,
      if_neg, if_pos]
    exact ih (by omega) h2 (by omega)
  | case4 lo hi middle t hget hne hlt hguard =>
    intro h1 h2 h3
    obtain ⟨hmlen, hmget⟩ := List.getElem?_eq_some_iff.1 hget
    have him : i < middle := by
      rcases Nat.lt_trichotomy i middle with h | h | h
      · exact h
      · have hti : ts[i]? = some t := by rw [h]; exact hget
        rw [List.getElem?_eq_getElem hin] at hti
        have hit : ts[i] = t := by simpa using hti
        rw [hit] at hnum
        exact absurd hnum hne
      · have hlt2 := strictlyIncreasing_getElem_lt ts hs middle i hmlen hin h
        rw [hmget, hnum] at hlt2
        omega
    exact absurd (by omega) hguard
  | case5 lo hi middle t hget hne hlt hguard ih =>
    intro h1 h2 h3
    obtain ⟨hmlen, hmget⟩ := List.getElem?_eq_some_iff.1 hget
    have him : middle < i := by
      rcases Nat.lt_trichotomy middle i with h | h | h
      · exact h
      · have hti : ts[i]? = some t := by rw [← h]; exact hget
        rw [List.getElem?_eq_getElem hin] at hti
        have hit : ts[i] = t := by simpa using hti
        rw [hit] at hnum
        exact absurd hnum hne
      · have hlt2 := strictlyIncreasing_getElem_lt ts hs i middle hin hmlen h
        rw [hmget, hnum] at hlt2
        omega
    rw [binarySearchAux.eq_def]
    simp only [hget, hne, hlt, hguard, if_false, if_true, ite_true, ite_false,
      if_neg, if_pos]
    exact ih h1 (by omega) h3
  | case6 lo hi middle t hget hne hlt hguard =>
    intro h1 h2 h3
    obtain ⟨hmlen, hmget⟩ := List.getElem?_eq_some_iff.1 hget
    have him : middle < i := by
      rcases Nat.lt_trichotomy middle i with h | h | h
      · exact h
      · have hti : ts[i]? = some t := by rw [← h]; exact hget
        rw [List.getElem?_eq_getElem hin] at hti
        have hit : ts[i] = t := by simpa using hti
        rw [hit] at hnum
        exact absurd hnum hne
      · have hlt2 := strictlyIncreasing_getElem_lt ts hs i middle hin hmlen h
        rw [hmget, hnum] at hlt2
        omega
    exact absurd (by omega) hguard

theorem binarySearch_sound (ts : List Transaction) (n : Nat) (i : Nat)
    (h : binarySearch ts n = some i) :
    ∃ hlen : i < ts.length, ts[i].transactionNumber = n := by
  unfold binarySearch at h
  by_cases he : ts.isEmpty
  · rw [if_pos he] at h
    exact absurd h (by simp)
  · rw [if_neg he] at h
    exact binarySearchAux_sound ts n 0 (ts.length - 1) i h

theorem binarySearch_complete (ts : List Transaction)
    (hs : StrictlyIncreasing ts) (n : Nat) (i : Nat) (hin : i < ts.length)
    (hnum : ts[i].transactionNumber = n) : binarySearch ts n = some i := by
  unfold binarySearch
  have hne : ¬ ts.isEmpty := by
    cases ts with
    | nil => simp at hin
    | cons a l => simp
  rw [if_neg hne]
  exact binarySearchAux_complete ts hs n i hin hnum 0 (ts.length - 1)
    (by omega) (by omega) (by omega)

/-! ### Truncation lemmas -/

theorem take_eq_filter_le (n : Nat) :
    ∀ (ts : List Transaction) (i : Nat), StrictlyIncreasing ts →
      ∀ hi : i < ts.length, ts[i].transactionNumber = n →
      ts.take (i + 1) = ts.filter (fun u => u.transactionNumber ≤ n) := by
  intro ts
  induction ts with
  | nil => intro i _ hi; simp at hi
  | cons a l ih =>
    intro i hs hi hnum
    cases i with
    | zero =>
      simp only [List.getElem_cons_zero] at hnum
      have hfil : List.filter (fun u => decide (u.transactionNumber ≤ n)) l = [] := by
        rw [List.filter_eq_nil_iff]
        intro u hu
        have := (List.pairwise_cons.1 hs).1 u hu
        simp only [decide_eq_true_eq]
        omega
      rw [List.take_succ_cons, List.take_zero,
        List.filter_cons_of_pos (by simp [hnum]), hfil]
    | succ k =>
      have hs' := (List.pairwise_cons.1 hs).2
      have hk : k < l.length := by simpa using hi
      have hknum : l[k].transactionNumber = n := by
        simpa using hnum
      have ha : a.transactionNumber ≤ n := by
        have := (List.pairwise_cons.1 hs).1 l[k] (List.getElem_mem hk)
        omega
      rw [List.take_succ_cons, List.filter_cons_of_pos (by simpa using ha)]
      rw [ih k hs' hk hknum]

theorem getLast_take (ts : List Transaction) :
    ∀ i, ∀ hi : i < ts.length, (ts.take (i + 1)).getLast? = some ts[i] := by
  induction ts with
  | nil => intro i hi; simp at hi
  | cons a l ih =>
    intro i hi
    cases i with
    | zero => simp
    | succ k =>
      have hk : k < l.length := by simpa using hi
      cases l with
      | nil => simp at hk
      | cons b l2 =>
        rw [List.take_succ_cons, List.take_succ_cons, List.getLast?_cons_cons]
        have hkl := ih k hk
        rw [List.take_succ_cons] at hkl
        rw [hkl]
        simp

theorem removeTransactionsLaterThan_found (ts : List Transaction)
    (hs : StrictlyIncreasing ts) (i : Nat) (hi : i < ts.length) (n : Nat)
    (hnum : ts[i].transactionNumber = n) :
    removeTransactionsLaterThan ts (some n) = Except.ok (ts.take (i + 1)) := by
  have hb := binarySearch_complete ts hs n i hi hnum
  simp [removeTransactionsLaterThan, hb]

/-! ### Checkpoint sampling lemmas -/

theorem expSpacedAux_subset (ts : List Transaction) :
    ∀ index distanceMinusOne t, t ∈ expSpacedAux ts index distanceMinusOne →
      t ∈ ts := by
  intro index
  induction index using Nat.strong_induction_on with
  | _ index ih =>
    intro d t h
    rw [expSpacedAux.eq_def] at h
    split at h
    · simp at h
    · rename_i u hx
      have hu : u ∈ ts := List.getElem?_mem hx
      split at h
      · rename_i hg
        rcases List.mem_cons.1 h with rfl | h2
        · exact hu
        · exact ih (index - (d + 1)) (by omega) (2 * d + 1) t h2
      · simp only [List.mem_singleton] at h
        subst h
        exact hu

theorem getExponentiallySpacedTransactions_subset (ts : List Transaction)
    (t : Transaction) (h : t ∈ getExponentiallySpacedTransactions ts) :
    t ∈ ts := by
  unfold getExponentiallySpacedTransactions at h
  by_cases he : ts.isEmpty
  · rw [if_pos he] at h
    simp at h
  · rw [if_neg he] at h
    exact expSpacedAux_subset ts (ts.length - 1) 0 t h

theorem expSpacedAux_step (ts : List Transaction) (index d : Nat)
    (h : index < ts.length) (hg : d + 1 ≤ index) :
    expSpacedAux ts index d
      = ts[index] :: expSpacedAux ts (index - (d + 1)) (2 * d + 1) := by
  rw [expSpacedAux.eq_def, List.getElem?_eq_getElem h]
  simp [hg]

theorem expSpacedAux_last (ts : List Transaction) (index d : Nat)
    (h : index < ts.length) (hg : ¬ (d + 1 ≤ index)) :
    expSpacedAux ts index d = [ts[index]] := by
  rw [expSpacedAux.eq_def, List.getElem?_eq_getElem h]
  simp [hg]

theorem expSpacedAux_formula (ts : List Transaction) :
    ∀ k j, k = Nat.log 2 ts.length + 1 - j → 2 ^ j ≤ ts.length →
      expSpacedAux ts (ts.length - 2 ^ j) (2 ^ j - 1) =
        (List.range (Nat.log 2 ts.length + 1 - j)).filterMap
          (fun m => ts[ts.length - 2 ^ (j + m)]?) ∧
      (expSpacedAux ts (ts.length - 2 ^ j) (2 ^ j - 1)).length =
        Nat.log 2 ts.length + 1 - j := by
  intro k
  induction k with
  | zero =>
    intro j hk hj
    exfalso
    have hn : ts.length ≠ 0 := by
      have := Nat.one_le_two_pow (n := j)
      omega
    have := (Nat.pow_le_iff_le_log (by norm_num) hn).1 hj
    omega
  | succ k ihk =>
    intro j hk hj
    have h1 : 1 ≤ 2 ^ j := Nat.one_le_two_pow
    have hp : 2 ^ (j + 1) = 2 ^ j * 2 := Nat.pow_succ 2 j
    have hn : ts.length ≠ 0 := by omega
    have hjlog : j ≤ Nat.log 2 ts.length :=
      (Nat.pow_le_iff_le_log (by norm_num) hn).1 hj
    have hidx : ts.length - 2 ^ j < ts.length := by omega
    by_cases hrec : 2 ^ (j + 1) ≤ ts.length
    · have hguard : (2 ^ j - 1) + 1 ≤ ts.length - 2 ^ j := by omega
      have hk' : k = Nat.log 2 ts.length + 1 - (j + 1) := by omega
      obtain ⟨e1, e2⟩ := ihk (j + 1) hk' hrec
      have hstep := expSpacedAux_step ts (ts.length - 2 ^ j) (2 ^ j - 1) hidx hguard
      rw [show ts.length - 2 ^ j - (2 ^ j - 1 + 1) = ts.length - 2 ^ (j + 1) by omega,
          show 2 * (2 ^ j - 1) + 1 = 2 ^ (j + 1) - 1 by omega] at hstep
      have hrange : Nat.log 2 ts.length + 1 - j = k + 1 := by omega
      have hfun : ((fun m => ts[ts.length - 2 ^ (j + m)]?) ∘ Nat.succ)
          = (fun m => ts[ts.length - 2 ^ (j + 1 + m)]?) := by
        funext m
        simp only [Function.comp]
        rw [show j + Nat.succ m = j + 1 + m by omega]
      constructor
      · rw [hstep, e1, hrange, ← hk', List.range_succ_eq_map,
          List.filterMap_cons_some (by
            rw [Nat.add_zero]
            exact List.getElem?_eq_getElem hidx),
          List.filterMap_map, hfun]
      · rw [hstep]
        simp only [List.length_cons, e2]
        omega
    · have hguard : ¬ ((2 ^ j - 1) + 1 ≤ ts.length - 2 ^ j) := by omega
      rw [expSpacedAux_last ts _ _ hidx hguard]
      have hlog : Nat.log 2 ts.length = j :=
        Nat.log_eq_of_pow_le_of_lt_pow hj (by omega)
      rw [hlog]
      have : j + 1 - j = 1 := by omega
      rw [this]
      constructor
      · rw [show List.range 1 = [0] from rfl]
        rw [List.filterMap_cons_some (by
          rw [Nat.add_zero]
          exact List.getElem?_eq_getElem hidx)]
        rfl
      · rfl

theorem expSpaced_formula (ts : List Transaction) (h : 1 ≤ ts.length) :
    getExponentiallySpacedTransactions ts =
      (List.range (Nat.log 2 ts.length + 1)).filterMap
        (fun j => ts[ts.length - 2 ^ j]?) ∧
    (getExponentiallySpacedTransactions ts).length = Nat.log 2 ts.length + 1 := by
  have hall := expSpacedAux_formula ts (Nat.log 2 ts.length + 1) 0
    (by omega) (by simpa using h)
  rw [pow_zero, Nat.sub_zero] at hall
  rw [show (1:Nat) - 1 = 0 from rfl] at hall
  have hfun : (fun m => ts[ts.length - 2 ^ (0 + m)]?)
      = (fun m : Nat => ts[ts.length - 2 ^ m]?) := by
    funext m
    rw [Nat.zero_add]
  rw [hfun] at hall
  have hne : ¬ ts.isEmpty := by
    cases ts with
    | nil => simp at h
    | cons a l => simp
  unfold getExponentiallySpacedTransactions
  rw [if_neg hne]
  exact hall

/-! ### Store invariant preservation -/

theorem removeTransactionsLaterThan_strictlyIncreasing (ts : List Transaction)
    (hs : StrictlyIncreasing ts) (o : Option Nat) (res : List Transaction)
    (h : removeTransactionsLaterThan ts o = Except.ok res) :
    StrictlyIncreasing res := by
  cases o with
  | none =>
    simp only [removeTransactionsLaterThan] at h
    obtain rfl : ([] : List Transaction) = res := by simpa using h
    simp [StrictlyIncreasing]
  | some n =>
    simp only [removeTransactionsLaterThan] at h
    cases hb : binarySearch ts n with
    | none => rw [hb] at h; simp at h
    | some i =>
      rw [hb] at h
      obtain rfl : ts.take (i + 1) = res := by simpa using h
      exact List.Pairwise.sublist (List.take_sublist (i + 1) ts) hs

theorem applyOp_strictlyIncreasing (ts : List Transaction) (op : StoreOp)
    (hs : StrictlyIncreasing ts) : StrictlyIncreasing (applyOp ts op) := by
  cases op with
  | add t => exact addTransaction_strictlyIncreasing ts t hs
  | remove n =>
    simp only [applyOp]
    cases h : removeTransactionsLaterThan ts n with
    | ok res => exact removeTransactionsLaterThan_strictlyIncreasing ts hs n res h
    | error e => exact hs

theorem foldl_applyOp_strictlyIncreasing (ops : List StoreOp) :
    ∀ ts, StrictlyIncreasing ts → StrictlyIncreasing (ops.foldl applyOp ts) := by
  induction ops with
  | nil => intro ts hs; exact hs
  | cons op rest ih =>
    intro ts hs
    exact ih (applyOp ts op) (applyOp_strictlyIncreasing ts op hs)

/-! ### RevertInvalidTransactions lemmas -/

theorem revertInvalidTransactions_ok
    (handleFirstValidRequest : List Transaction → FirstValidResult)
    (st : EngineState) (body : Transaction)
    (hfv : handleFirstValidRequest (getExponentiallySpacedTransactions st.transactions)
      = FirstValidResult.succeeded body)
    (hs : StrictlyIncreasing st.transactions)
    (hmem : body ∈ getExponentiallySpacedTransactions st.transactions) :
    ∃ st2, revertInvalidTransactions handleFirstValidRequest st = Except.ok st2 ∧
      st2.lastKnownTransaction = some body ∧
      getLastTransaction st2.transactions = some body ∧
      st2.transactions = st.transactions.filter
        (fun u => u.transactionNumber ≤ body.transactionNumber) := by
  have hmem2 := getExponentiallySpacedTransactions_subset st.transactions body hmem
  obtain ⟨i, hi, hib⟩ := List.mem_iff_getElem.1 hmem2
  have hrm := removeTransactionsLaterThan_found st.transactions hs i hi
    body.transactionNumber (by rw [hib])
  refine ⟨{ transactions := st.transactions.take (i + 1),
            lastKnownTransaction := some body }, ?_, rfl, ?_, ?_⟩
  · simp [revertInvalidTransactions, hfv, hrm]
  · show getLastTransaction (st.transactions.take (i + 1)) = some body
    rw [getLastTransaction_eq_getLast, getLast_take st.transactions i hi, hib]
  · show st.transactions.take (i + 1) = _
    rw [take_eq_filter_le body.transactionNumber st.transactions i hs hi (by rw [hib])]

/-! ### Cycle-step lemmas -/

theorem cycleStep_record_ref
    (fv : List Transaction → FirstValidResult) (st : EngineState)
    (flag more : Bool) (r : FetchResult) :
    (cycleStep fv st flag more r).record.ref = fetchRef st.lastKnownTransaction := by
  cases r <;> simp only [cycleStep] <;> split <;>
    first
      | rfl
      | (split <;> rfl)

theorem cycleStep_revertRan
    (fv : List Transaction → FirstValidResult) (st : EngineState)
    (flag more : Bool) (r : FetchResult) :
    (cycleStep fv st flag more r).record.revertRan = (cycleStep fv st flag more r).flag := by
  cases r <;> simp only [cycleStep] <;> split <;>
    first
      | (split <;> simp_all)
      | simp_all

theorem cycleStep_flag
    (fv : List Transaction → FirstValidResult) (st : EngineState)
    (flag more : Bool) (r : FetchResult) :
    (cycleStep fv st flag more r).flag
      = (flag || (cycleStep fv st flag more r).record.reorgSignal) := by
  cases r <;> simp only [cycleStep] <;> split <;>
    first
      | (split <;> simp_all)
      | simp_all

/-! ### Cycle trace lemmas -/

theorem runCycleAux_trace_revertRan (fv : List Transaction → FirstValidResult) :
    ∀ (script : List FetchResult) (st : EngineState) (flag more : Bool)
      (j : Nat) (q : IterRecord),
      ((runCycleAux fv script st flag more).2)[j]? = some q →
      q.revertRan = (flag ||
        (((runCycleAux fv script st flag more).2.take (j + 1)).any
          (fun w => w.reorgSignal))) := by
  intro script
  induction script with
  | nil =>
    intro st flag more j q hq
    simp [runCycleAux] at hq
  | cons r rest ih =>
    intro st flag more j q hq
    simp only [runCycleAux] at hq ⊢
    by_cases habort : (cycleStep fv st flag more r).aborted
    · rw [if_pos habort] at hq ⊢
      cases j with
      | zero =>
        obtain rfl : (cycleStep fv st flag more r).record = q := by simpa using hq
        simp only [List.take_succ_cons, List.take_zero, List.any_cons, List.any_nil,
          Bool.or_false]
        rw [cycleStep_revertRan, cycleStep_flag]
      | succ k => simp at hq
    · rw [if_neg habort] at hq ⊢
      by_cases hmore : (cycleStep fv st flag more r).more
      · rw [if_pos hmore] at hq ⊢
        cases j with
        | zero =>
          obtain rfl : (cycleStep fv st flag more r).record = q := by simpa using hq
          simp only [List.take_succ_cons, List.take_zero, List.any_cons, List.any_nil,
            Bool.or_false]
          rw [cycleStep_revertRan, cycleStep_flag]
        | succ k =>
          simp only [List.getElem?_cons_succ] at hq
          rw [ih (cycleStep fv st flag more r).st (cycleStep fv st flag more r).flag
            (cycleStep fv st flag more r).more k q hq]
          simp only [List.take_succ_cons, List.any_cons]
          rw [cycleStep_flag fv st flag more r, Bool.or_assoc]
      · rw [if_neg hmore] at hq ⊢
        cases j with
        | zero =>
          obtain rfl : (cycleStep fv st flag more r).record = q := by simpa using hq
          simp only [List.take_succ_cons, List.take_zero, List.any_cons, List.any_nil,
            Bool.or_false]
          rw [cycleStep_revertRan, cycleStep_flag]
        | succ k => simp at hq

theorem runCycleAux_head_ref (fv : List Transaction → FirstValidResult)
    (r : FetchResult) (rest : List FetchResult) (st : EngineState)
    (flag more : Bool) :
    ∃ q tl, (runCycleAux fv (r :: rest) st flag more).2 = q :: tl ∧
      q.ref = fetchRef st.lastKnownTransaction := by
  simp only [runCycleAux]
  by_cases habort : (cycleStep fv st flag more r).aborted
  · rw [if_pos habort]
    exact ⟨_, _, rfl, cycleStep_record_ref fv st flag more r⟩
  · rw [if_neg habort]
    by_cases hmore : (cycleStep fv st flag more r).more
    · rw [if_pos hmore]
      exact ⟨_, _, rfl, cycleStep_record_ref fv st flag more r⟩
    · rw [if_neg hmore]
      exact ⟨_, _, rfl, cycleStep_record_ref fv st flag more r⟩

/-! ### Claim theorems -/

/-- Claim C1: on a log with strictly increasing transaction numbers, when `n`
is the number of some stored transaction, `removeTransactionsLaterThan (some n)`
retains exactly the stored transactions with number ≤ n in their original
order, and `removeTransactionsLaterThan none` empties the log. -/
theorem removeTransactionsLaterThan_truncates (ts : List Transaction) (n : Nat)
    (hs : StrictlyIncreasing ts) (hmem : ∃ t ∈ ts, t.transactionNumber = n) :
    removeTransactionsLaterThan ts (some n)
      = Except.ok (ts.filter (fun u => u.transactionNumber ≤ n)) ∧
    removeTransactionsLaterThan ts none = Except.ok [] := by
  obtain ⟨t, ht, hn⟩ := hmem
  obtain ⟨i, hi, rfl⟩ := List.mem_iff_getElem.1 ht
  refine ⟨?_, rfl⟩
  rw [removeTransactionsLaterThan_found ts hs i hi n hn]
  rw [take_eq_filter_le n ts i hs hi hn]

theorem removeTransactionsLaterThan_truncates_witness :
    removeTransactionsLaterThan [tx 1, tx 2, tx 3] (some 2)
      = Except.ok (([tx 1, tx 2, tx 3]).filter (fun u => u.transactionNumber ≤ 2)) ∧
    removeTransactionsLaterThan [tx 1, tx 2, tx 3] none = Except.ok [] :=
  removeTransactionsLaterThan_truncates [tx 1, tx 2, tx 3] 2 (by decide)
    ⟨tx 2, by decide, by decide⟩

/-- Claim C2: `addTransaction` is a silent no-op exactly when the log is
non-empty and its newest stored number is ≥ the argument's number, appends
otherwise, and re-adding the same transaction (or any older one) after it is
stored leaves the log as a single add would. -/
theorem addTransaction_idempotent (ts : List Transaction) (t : Transaction) :
    (∀ last, getLastTransaction ts = some last →
      t.transactionNumber ≤ last.transactionNumber → addTransaction ts t = ts) ∧
    (getLastTransaction ts = none → addTransaction ts t = ts ++ [t]) ∧
    (∀ last, getLastTransaction ts = some last →
      last.transactionNumber < t.transactionNumber →
      addTransaction ts t = ts ++ [t]) ∧
    (∀ u, u.transactionNumber ≤ t.transactionNumber →
      addTransaction (addTransaction ts t) u = addTransaction ts t) := by
  refine ⟨?_, ?_, ?_, ?_⟩
  · intro last hl hle
    simp [addTransaction, hl, hle]
  · intro hl
    simp [addTransaction, hl]
  · intro last hl hlt
    simp [addTransaction, hl]
    omega
  · intro u hu
    cases hl : getLastTransaction ts with
    | none =>
      have h1 : addTransaction ts t = ts ++ [t] := by simp [addTransaction, hl]
      have h2 : getLastTransaction (ts ++ [t]) = some t := by
        rw [getLastTransaction_eq_getLast, List.getLast?_concat]
      rw [h1]
      simp [addTransaction, h2, hu]
    | some last =>
      by_cases hle : t.transactionNumber ≤ last.transactionNumber
      · have h1 : addTransaction ts t = ts := by simp [addTransaction, hl, hle]
        rw [h1]
        simp [addTransaction, hl]
        omega
      · have h1 : addTransaction ts t = ts ++ [t] := by
          simp [addTransaction, hl]
          omega
        have h2 : getLastTransaction (ts ++ [t]) = some t := by
          rw [getLastTransaction_eq_getLast, List.getLast?_concat]
        rw [h1]
        simp [addTransaction, h2, hu]

theorem addTransaction_idempotent_witness :
    addTransaction (addTransaction [tx 1] (tx 2)) (tx 2) = addTransaction [tx 1] (tx 2) :=
  (addTransaction_idempotent [tx 1] (tx 2)).2.2.2 (tx 2) (by decide)

/-- Claim C7: truncating to a defined number that is the `transactionNumber`
of no stored transaction (in particular, truncating a non-empty or empty log
to an absent number) throws the internal-consistency error instead of
truncating. -/
theorem removeTransactionsLaterThan_missing_errors (ts : List Transaction)
    (n : Nat) (h : ∀ t ∈ ts, t.transactionNumber ≠ n) :
    ∃ e, removeTransactionsLaterThan ts (some n) = Except.error e := by
  cases hb : binarySearch ts n with
  | none =>
    exact ⟨"Unable to locate transction: " ++ toString n,
      by simp [removeTransactionsLaterThan, hb]⟩
  | some i =>
    obtain ⟨hlen, hnum⟩ := binarySearch_sound ts n i hb
    exact absurd hnum (h ts[i] (List.getElem_mem hlen))

theorem removeTransactionsLaterThan_missing_errors_witness :
    ∃ e, removeTransactionsLaterThan [tx 1, tx 3] (some 2) = Except.error e :=
  removeTransactionsLaterThan_missing_errors [tx 1, tx 3] 2 (by decide)

/-- Claim C8: starting from the empty log, any sequence of `addTransaction`
and `removeTransactionsLaterThan` calls with arbitrary arguments leaves the
stored numbers strictly increasing and duplicate-free (insertion order equals
numeric order), and `getLastTransaction` returns none exactly on the empty
log and otherwise the stored transaction of maximum number. -/
theorem store_ordering_invariant (ops : List StoreOp) :
    StrictlyIncreasing (ops.foldl applyOp []) ∧
    ((ops.foldl applyOp []).map (fun t => t.transactionNumber)).Nodup ∧
    (getLastTransaction (ops.foldl applyOp []) = none ↔ ops.foldl applyOp [] = []) ∧
    (∀ l, getLastTransaction (ops.foldl applyOp []) = some l →
      ∀ t ∈ ops.foldl applyOp [], t.transactionNumber ≤ l.transactionNumber) := by
  have hs := foldl_applyOp_strictlyIncreasing ops [] (by simp [StrictlyIncreasing])
  refine ⟨hs, ?_, getLastTransaction_eq_none_iff _, fun l hl => last_is_max _ hs l hl⟩
  exact List.Pairwise.map _ (fun a b hab => Nat.ne_of_lt hab) hs

theorem store_ordering_invariant_witness :
    StrictlyIncreasing
      ([StoreOp.add (tx 1), StoreOp.add (tx 5), StoreOp.add (tx 2),
        StoreOp.remove (some 1)].foldl applyOp []) :=
  (store_ordering_invariant
    [StoreOp.add (tx 1), StoreOp.add (tx 5), StoreOp.add (tx 2),
     StoreOp.remove (some 1)]).1

/-- Claim C3 counterexample: on a log of size 3 the code returns 2 checkpoints
(indices 2 and 1; the next walk position, index -1, is invalid), while the
claimed count ⌈log2(3)⌉ + 1 is 3. -/
theorem expSpaced_count_counterexample :
    ¬ ((getExponentiallySpacedTransactions [tx 1, tx 2, tx 3]).length
        = Nat.clog 2 (([tx 1, tx 2, tx 3] : List Transaction).length) + 1) := by
  have h1 : (getExponentiallySpacedTransactions [tx 1, tx 2, tx 3]).length = 2 := by
    simp [getExponentiallySpacedTransactions, expSpacedAux]
  have h2 : Nat.clog 2 (([tx 1, tx 2, tx 3] : List Transaction).length) = 2 := by
    simp [Nat.clog]
  omega

/-- Claim C3 (amended): for a log of size n ≥ 1 the returned checkpoints are
exactly the transactions at indices n - 2^j for j = 0, 1, …, ⌊log2(n)⌋
(that is, n-1, n-2, n-4, n-8, … down to the first valid index ≥ 0), newest
first, so the count is ⌊log2(n)⌋ + 1 (not ⌈log2(n)⌉ + 1); the empty log
yields the empty list. -/
theorem expSpaced_characterization (ts : List Transaction) (h : 1 ≤ ts.length) :
    getExponentiallySpacedTransactions ts =
      (List.range (Nat.log 2 ts.length + 1)).filterMap
        (fun j => ts[ts.length - 2 ^ j]?) ∧
    (getExponentiallySpacedTransactions ts).length = Nat.log 2 ts.length + 1 ∧
    getExponentiallySpacedTransactions ([] : List Transaction) = [] := by
  obtain ⟨e1, e2⟩ := expSpaced_formula ts h
  exact ⟨e1, e2, rfl⟩

theorem expSpaced_characterization_witness :
    getExponentiallySpacedTransactions [tx 1, tx 2, tx 3, tx 4, tx 5] =
      (List.range (Nat.log 2 ([tx 1, tx 2, tx 3, tx 4, tx 5] : List Transaction).length + 1)).filterMap
        (fun j => ([tx 1, tx 2, tx 3, tx 4, tx 5] : List Transaction)[([tx 1, tx 2, tx 3, tx 4, tx 5] : List Transaction).length - 2 ^ j]?) ∧
    (getExponentiallySpacedTransactions [tx 1, tx 2, tx 3, tx 4, tx 5]).length
      = Nat.log 2 ([tx 1, tx 2, tx 3, tx 4, tx 5] : List Transaction).length + 1 ∧
    getExponentiallySpacedTransactions ([] : List Transaction) = [] :=
  expSpaced_characterization [tx 1, tx 2, tx 3, tx 4, tx 5] (by decide)

/-- Claim C4: with the log holding the transactions numbered 1..5 and the
upstream first-valid query answering `Succeeded` with transaction 3,
`RevertInvalidTransactions` leaves the log holding exactly the transactions
numbered 1, 2, 3 and sets `lastKnownTransaction` to the response body, whose
`transactionNumber` is 3. -/
theorem revert_fork_resolution_end_to_end :
    revertInvalidTransactions (fun _ => FirstValidResult.succeeded (tx 3))
      { transactions := [tx 1, tx 2, tx 3, tx 4, tx 5],
        lastKnownTransaction := some (tx 5) }
      = Except.ok { transactions := [tx 1, tx 2, tx 3],
                    lastKnownTransaction := some (tx 3) } ∧
    (tx 3).transactionNumber = 3 := by
  refine ⟨?_, rfl⟩
  simp [revertInvalidTransactions, removeTransactionsLaterThan, binarySearch,
    binarySearchAux, tx]

/-- Claim C6 counterexample: when the upstream first-valid query reports no
valid checkpoint (a non-`Succeeded` response), `RevertInvalidTransactions`
returns normally with the state untouched — an ordinary silent no-op, with no
raised failure. -/
theorem firstValid_failure_counterexample :
    revertInvalidTransactions (fun _ => FirstValidResult.failure)
      { transactions := [tx 1, tx 2, tx 3, tx 4, tx 5],
        lastKnownTransaction := some (tx 5) }
      = Except.ok { transactions := [tx 1, tx 2, tx 3, tx 4, tx 5],
                    lastKnownTransaction := some (tx 5) } := rfl

/-- Claim C6 (amended): a first-valid response reporting no valid checkpoint
is silently swallowed — `RevertInvalidTransactions` returns normally, leaving
the log and `lastKnownTransaction` unchanged, with no raised failure; only the
other consistency violation (a `Succeeded` response whose number no stored
transaction carries) raises an error, via `removeTransactionsLaterThan`. -/
theorem firstValid_failure_silent (st : EngineState) (body : Transaction)
    (fv : List Transaction → FirstValidResult)
    (hfail : fv (getExponentiallySpacedTransactions st.transactions)
      = FirstValidResult.failure)
    (hmiss : ∀ t ∈ st.transactions,
      t.transactionNumber ≠ body.transactionNumber) :
    revertInvalidTransactions fv st = Except.ok st ∧
    ∀ fv2, fv2 (getExponentiallySpacedTransactions st.transactions)
        = FirstValidResult.succeeded body →
      ∃ e, revertInvalidTransactions fv2 st = Except.error e := by
  constructor
  · simp [revertInvalidTransactions, hfail]
  · intro fv2 h2
    cases hb : binarySearch st.transactions body.transactionNumber with
    | none =>
      exact ⟨"Unable to locate transction: " ++ toString body.transactionNumber,
        by simp [revertInvalidTransactions, h2, removeTransactionsLaterThan, hb]⟩
    | some i =>
      obtain ⟨hlen, hnum⟩ := binarySearch_sound st.transactions
        body.transactionNumber i hb
      exact absurd hnum (hmiss _ (List.getElem_mem hlen))

theorem firstValid_failure_silent_witness :
    revertInvalidTransactions (fun _ => FirstValidResult.failure)
      { transactions := [tx 1, tx 3], lastKnownTransaction := some (tx 3) }
      = Except.ok { transactions := [tx 1, tx 3], lastKnownTransaction := some (tx 3) } ∧
    ∀ fv2, fv2 (getExponentiallySpacedTransactions
        ({ transactions := [tx 1, tx 3], lastKnownTransaction := some (tx 3) } : EngineState).transactions)
        = FirstValidResult.succeeded (tx 2) →
      ∃ e, revertInvalidTransactions fv2
        { transactions := [tx 1, tx 3], lastKnownTransaction := some (tx 3) }
        = Except.error e :=
  firstValid_failure_silent
    { transactions := [tx 1, tx 3], lastKnownTransaction := some (tx 3) }
    (tx 2) (fun _ => FirstValidResult.failure) rfl (by decide)

/-- Claim C9: after each ingestion append the engine refreshes
`lastKnownTransaction` from the store, and after a fork-resolution truncation
whose first-valid response is one of the supplied checkpoints, the cached
`lastKnownTransaction` again equals `getLastTransaction` of the stored log. -/
theorem lastKnown_matches_log (st : EngineState) (t body : Transaction)
    (fv : List Transaction → FirstValidResult)
    (hfv : fv (getExponentiallySpacedTransactions st.transactions)
      = FirstValidResult.succeeded body)
    (hs : StrictlyIncreasing st.transactions)
    (hmem : body ∈ getExponentiallySpacedTransactions st.transactions) :
    (ingestTransaction st t).lastKnownTransaction
      = getLastTransaction (ingestTransaction st t).transactions ∧
    ∃ st2, revertInvalidTransactions fv st = Except.ok st2 ∧
      st2.lastKnownTransaction = getLastTransaction st2.transactions := by
  refine ⟨rfl, ?_⟩
  obtain ⟨st2, hrev, hlast, hgetlast, hfilter⟩ :=
    revertInvalidTransactions_ok fv st body hfv hs hmem
  exact ⟨st2, hrev, by rw [hlast, hgetlast]⟩

theorem lastKnown_matches_log_witness :
    (ingestTransaction
        { transactions := [tx 1, tx 2, tx 3, tx 4, tx 5], lastKnownTransaction := some (tx 5) }
        (tx 6)).lastKnownTransaction
      = getLastTransaction (ingestTransaction
        { transactions := [tx 1, tx 2, tx 3, tx 4, tx 5], lastKnownTransaction := some (tx 5) }
        (tx 6)).transactions ∧
    ∃ st2, revertInvalidTransactions (fun _ => FirstValidResult.succeeded (tx 4))
        { transactions := [tx 1, tx 2, tx 3, tx 4, tx 5], lastKnownTransaction := some (tx 5) }
        = Except.ok st2 ∧
      st2.lastKnownTransaction = getLastTransaction st2.transactions :=
  lastKnown_matches_log
    { transactions := [tx 1, tx 2, tx 3, tx 4, tx 5], lastKnownTransaction := some (tx 5) }
    (tx 6) (tx 4) (fun _ => FirstValidResult.succeeded (tx 4)) rfl (by decide)
    (by simp [getExponentiallySpacedTransactions, expSpacedAux])

/-- Claim C10: within one `processTransactions` cycle (which starts with
`blockReorganizationDetected = false`), the iteration at position j of the
cycle's trace ran `RevertInvalidTransactions` exactly when some iteration at
position ≤ j of the same cycle observed the reorg signal: the flag is set on
first observation, never cleared before the cycle ends, and is reset only
because a fresh cycle starts with a fresh flag. -/
theorem processTransactions_revert_iff_reorg_seen
    (fv : List Transaction → FirstValidResult) (st : EngineState)
    (script : List FetchResult) (j : Nat) (q : IterRecord)
    (hq : ((runCycle fv st script).2)[j]? = some q) :
    q.revertRan
      = ((runCycle fv st script).2.take (j + 1)).any (fun w => w.reorgSignal) := by
  have h := runCycleAux_trace_revertRan fv script st false false j q hq
  simpa using h

theorem processTransactions_revert_iff_reorg_seen_witness :
    ({ ref := (none, none), reorgSignal := false, revertRan := true } : IterRecord).revertRan
      = ((runCycle (fun _ => FirstValidResult.failure)
            { transactions := [], lastKnownTransaction := none }
            [FetchResult.succeeded [] true, FetchResult.badRequest reorgCode,
             FetchResult.succeeded [] true, FetchResult.succeeded [] false]).2.take 3).any
          (fun w => w.reorgSignal) :=
  processTransactions_revert_iff_reorg_seen (fun _ => FirstValidResult.failure)
    { transactions := [], lastKnownTransaction := none }
    [FetchResult.succeeded [] true, FetchResult.badRequest reorgCode,
     FetchResult.succeeded [] true, FetchResult.succeeded [] false]
    2 { ref := (none, none), reorgSignal := false, revertRan := true } (by decide)

/-- Claim C5 counterexample: a cycle whose first fetch returns the reorg
signal runs fork resolution (which truncates the log and corrects
`lastKnownTransaction`), but since `moreTransactions` is still `false` the
`do … while` condition fails and no further fetch is issued in that cycle:
although a second upstream response is available in the script, it is never
consumed — the trace holds exactly one iteration. -/
theorem reorg_no_resume_counterexample :
    (runCycle (fun _ => FirstValidResult.succeeded (tx 3))
      { transactions := [tx 1, tx 2, tx 3, tx 4, tx 5],
        lastKnownTransaction := some (tx 5) }
      [FetchResult.badRequest reorgCode, FetchResult.succeeded [] false]).2
      = [{ ref := (some 5, some "h"), reorgSignal := true, revertRan := true }] ∧
    (runCycle (fun _ => FirstValidResult.succeeded (tx 3))
      { transactions := [tx 1, tx 2, tx 3, tx 4, tx 5],
        lastKnownTransaction := some (tx 5) }
      [FetchResult.badRequest reorgCode, FetchResult.succeeded [] false]).1
      = { transactions := [tx 1, tx 2, tx 3], lastKnownTransaction := some (tx 3) } := by
  constructor <;>
    simp [runCycle, runCycleAux, cycleStep, revertInvalidTransactions,
      removeTransactionsLaterThan, binarySearch, binarySearchAux, tx, fetchRef,
      reorgCode]

/-- Claim C5 (amended): a reorg-signalled fetch runs fork resolution before
the `moreTransactions` check; the inner loop then resumes in the same cycle
only when `moreTransactions` was already `true` from an earlier successful
fetch of the cycle (the reorg response leaves it untouched, and it starts
`false`): with `moreTransactions = false` the reorg iteration is the cycle's
last even though further upstream responses are available, and with
`moreTransactions = true` the loop resumes and the next fetch uses the
corrected reference — the first-valid checkpoint, which is the truncated
log's new tail. -/
theorem processTransactions_reorg_resume
    (fv : List Transaction → FirstValidResult) (st : EngineState)
    (body : Transaction) (r : FetchResult) (rest : List FetchResult)
    (hfv : fv (getExponentiallySpacedTransactions st.transactions)
      = FirstValidResult.succeeded body)
    (hs : StrictlyIncreasing st.transactions)
    (hmem : body ∈ getExponentiallySpacedTransactions st.transactions) :
    ∃ st2, revertInvalidTransactions fv st = Except.ok st2 ∧
      st2.lastKnownTransaction = some body ∧
      getLastTransaction st2.transactions = some body ∧
      runCycleAux fv (FetchResult.badRequest reorgCode :: r :: rest)
          st false false
        = (st2, [{ ref := fetchRef st.lastKnownTransaction, reorgSignal := true,
                   revertRan := true }]) ∧
      ∃ q tl,
        (runCycleAux fv (FetchResult.badRequest reorgCode :: r :: rest)
          st false true).2
          = { ref := fetchRef st.lastKnownTransaction, reorgSignal := true,
              revertRan := true } :: q :: tl ∧
        q.ref = fetchRef (some body) := by
  obtain ⟨st2, hrev, hlast, hgetlast, hfilter⟩ :=
    revertInvalidTransactions_ok fv st body hfv hs hmem
  refine ⟨st2, hrev, hlast, hgetlast, ?_, ?_⟩
  · have hstep0 : cycleStep fv st false false (FetchResult.badRequest reorgCode)
        = { st := st2, flag := true, more := false,
            record := { ref := fetchRef st.lastKnownTransaction,
                        reorgSignal := true, revertRan := true },
            aborted := false } := by
      simp [cycleStep, reorgCode, hrev]
    rw [runCycleAux.eq_2, hstep0]
    simp
  · have hstep : cycleStep fv st false true (FetchResult.badRequest reorgCode)
        = { st := st2, flag := true, more := true,
            record := { ref := fetchRef st.lastKnownTransaction,
                        reorgSignal := true, revertRan := true },
            aborted := false } := by
      simp [cycleStep, reorgCode, hrev]
    obtain ⟨q, tl, htl, hqref⟩ := runCycleAux_head_ref fv r rest st2 true true
    refine ⟨q, tl, ?_, by rw [hqref, hlast]⟩
    rw [runCycleAux.eq_2, hstep]
    simp only []
    simp only [Bool.false_eq_true, if_false, if_true, reduceIte]
    rw [htl]

theorem processTransactions_reorg_resume_witness :
    ∃ st2,
      revertInvalidTransactions (fun _ => FirstValidResult.succeeded (tx 4))
        { transactions := [tx 1, tx 2, tx 3, tx 4, tx 5],
          lastKnownTransaction := some (tx 5) } = Except.ok st2 ∧
      st2.lastKnownTransaction = some (tx 4) ∧
      getLastTransaction st2.transactions = some (tx 4) ∧
      runCycleAux (fun _ => FirstValidResult.succeeded (tx 4))
          (FetchResult.badRequest reorgCode
            :: FetchResult.succeeded [] false :: [])
          { transactions := [tx 1, tx 2, tx 3, tx 4, tx 5],
            lastKnownTransaction := some (tx 5) } false false
        = (st2, [{ ref := fetchRef (some (tx 5)), reorgSignal := true,
                   revertRan := true }]) ∧
      ∃ q tl,
        (runCycleAux (fun _ => FirstValidResult.succeeded (tx 4))
          (FetchResult.badRequest reorgCode
            :: FetchResult.succeeded [] false :: [])
          { transactions := [tx 1, tx 2, tx 3, tx 4, tx 5],
            lastKnownTransaction := some (tx 5) } false true).2
          = { ref := fetchRef (some (tx 5)), reorgSignal := true,
              revertRan := true } :: q :: tl ∧
        q.ref = fetchRef (some (tx 4)) :=
  processTransactions_reorg_resume (fun _ => FirstValidResult.succeeded (tx 4))
    { transactions := [tx 1, tx 2, tx 3, tx 4, tx 5],
      lastKnownTransaction := some (tx 5) }
    (tx 4) (FetchResult.succeeded [] false) [] rfl (by decide)
    (by simp [getExponentiallySpacedTransactions, expSpacedAux])
